import Mathlib

/-!
Verification development for the numerical-analysis engine of the repository
(equation solver `solveEquation` / `newtonMethod` and the graph-analysis
primitives `findRoots`, `findExtrema`, `refine` and the numeric
antiderivative builder inside `draw` in `Graph.tsx`).

JavaScript numbers are modelled by `JNum`: either a finite value, carried as
an exact rational (the usual idealization that ignores rounding), or one of
the non-finite values `nan`, `inf`, `ninf`.  The mathjs evaluation of a
compiled expression at a binding is modelled as an abstract function
`JNum → Option JNum` (for the Newton solver, where the iterate itself can be
non-finite), respectively `ℚ → EvalRes` for the graph scanners (whose sample
abscissas are always finite rationals and which distinguish a thrown
evaluation error from a non-finite result in their control flow).
-/

namespace Melpher

/-- Model of a JavaScript `number`: a finite (exact rational) value or one of
`NaN`, `Infinity`, `-Infinity`. -/
inductive JNum where
  | fin (q : ℚ)
  | nan
  | inf
  | ninf
deriving DecidableEq

namespace JNum

/-- JS `isFinite(x) && !isNaN(x)`. -/
def isFin : JNum → Bool
  | fin _ => true
  | _ => false

/-- JS unary negation. -/
def neg : JNum → JNum
  | fin a => fin (-a)
  | nan => nan
  | inf => ninf
  | ninf => inf

/-- JS addition. -/
def add : JNum → JNum → JNum
  | fin a, fin b => fin (a + b)
  | fin _, inf => inf
  | fin _, ninf => ninf
  | inf, fin _ => inf
  | ninf, fin _ => ninf
  | inf, inf => inf
  | ninf, ninf => ninf
  | _, _ => nan

/-- JS subtraction, `a - b = a + (-b)`. -/
def sub (a b : JNum) : JNum := add a (neg b)

/-- JS division (on the idealized exact-rational carrier; division of a
nonzero finite value by zero gives the appropriately signed infinity, `0/0`
gives `NaN`). -/
def div : JNum → JNum → JNum
  | fin a, fin b =>
      if b = 0 then (if a = 0 then nan else if 0 < a then inf else ninf)
      else fin (a / b)
  | fin _, inf => fin 0
  | fin _, ninf => fin 0
  | inf, fin b => if b < 0 then ninf else inf
  | ninf, fin b => if b < 0 then inf else ninf
  | _, _ => nan

/-- JS `Math.abs`. -/
def abs : JNum → JNum
  | fin a => fin |a|
  | nan => nan
  | inf => inf
  | ninf => inf

/-- JS `<` comparison (false whenever `NaN` is involved). -/
def lt : JNum → JNum → Bool
  | fin a, fin b => decide (a < b)
  | fin _, inf => true
  | ninf, fin _ => true
  | ninf, inf => true
  | _, _ => false

end JNum

/-- A compiled expression handle, as used by `newtonMethod`: evaluation at a
binding value either throws (`none`) or returns a JS number. -/
def EvalFn : Type := JNum → Option JNum

/-- The Newton solver's finite-difference step size `h = 1e-8`. -/
def hQ : ℚ := 1 / 100000000

/-- `h` as a JS number. -/
def hN : JNum := JNum.fin hQ

/-- The flat-derivative threshold `1e-15` of `newtonMethod`. -/
def derivEps : ℚ := 1 / 1000000000000000

/-- The loose final-check threshold `1e-6` of `newtonMethod`. -/
def looseTol : ℚ := 1 / 1000000

/-- The default Newton tolerance `tol = 1e-12`. -/
def tolQ : ℚ := 1 / 1000000000000

/-- The deduplication tolerance `1e-8` shared by `solveEquation` and
`findRoots`. -/
def dedupEps : ℚ := 1 / 100000000

/-- The exact-zero sample threshold `1e-12` of `findRoots`. -/
def rootEps : ℚ := 1 / 1000000000000

/-- The final check of `newtonMethod` after exhausting `maxIter`: accept the
current `x` if `f(x)` evaluates and `|f(x)| < 1e-6`, else return null. -/
def newtonFinal (f : EvalFn) (x : JNum) : Option JNum :=
  match f x with
  | none => none
  | some fx => if JNum.lt (JNum.abs fx) (JNum.fin looseTol) then some x else none

/-- The iteration loop of `newtonMethod` (part_002, lines 102-128), with the
remaining iteration count as first argument.  Each iteration computes
`fx = f(x)` and `fxh = f(x+h)` (a thrown evaluation gives null), the
forward-difference estimate `dfx = (fxh - fx)/h`, then applies the source's
checks in order. -/
def newtonIter (f : EvalFn) (tol : ℚ) : Nat → JNum → Option JNum
  | 0, x => newtonFinal f x
  | n + 1, x =>
    match f x, f (JNum.add x hN) with
    | some fx, some fxh =>
      let dfx := JNum.div (JNum.sub fxh fx) hN
      if JNum.isFin fx = false then none
      else if JNum.lt (JNum.abs fx) (JNum.fin tol) then
        some (if JNum.lt (JNum.abs x) (JNum.fin tol) then JNum.fin 0 else x)
      else if JNum.lt (JNum.abs dfx) (JNum.fin derivEps) then none
      else
        let x1 := JNum.sub x (JNum.div fx dfx)
        if JNum.isFin x1 = false then none
        else if JNum.lt (JNum.abs (JNum.sub x1 x)) (JNum.fin tol) then
          some (if JNum.lt (JNum.abs x1) (JNum.fin tol) then JNum.fin 0 else x1)
        else newtonIter f tol n x1
    | _, _ => none

/-- `newtonMethod(compiled, variable, x0, maxIter, tol)` of part_002. -/
def newtonMethod (f : EvalFn) (x0 : JNum) (maxIter : Nat) (tol : ℚ) : Option JNum :=
  newtonIter f tol maxIter x0

/-- Modelled from the spec: the Newton iteration as §4.5 describes it, whose
derivative estimate is the central difference `(f(x+h) - f(x-h)) / (2h)` with
`h = 1e-8`; all other steps follow the spec sentence (converged when
`|f(x)| < tol`, null when the estimated derivative has magnitude below
`1e-15`, step `x ← x - f(x)/f′(x)`, null on a non-finite step, converged when
successive iterates differ by less than `tol`).  This definition exists only
to be compared against `newtonIter`, which is the code's actual loop. -/
def newtonCentralIter (f : EvalFn) (tol : ℚ) : Nat → JNum → Option JNum
  | 0, x => newtonFinal f x
  | n + 1, x =>
    match f x with
    | none => none
    | some fx =>
      if JNum.isFin fx = false then none
      else if JNum.lt (JNum.abs fx) (JNum.fin tol) then
        some (if JNum.lt (JNum.abs x) (JNum.fin tol) then JNum.fin 0 else x)
      else
        match f (JNum.add x hN), f (JNum.sub x hN) with
        | some fxh, some fxmh =>
          let dfx := JNum.div (JNum.sub fxh fxmh) (JNum.fin (2 * hQ))
          if JNum.lt (JNum.abs dfx) (JNum.fin derivEps) then none
          else
            let x1 := JNum.sub x (JNum.div fx dfx)
            if JNum.isFin x1 = false then none
            else if JNum.lt (JNum.abs (JNum.sub x1 x)) (JNum.fin tol) then
              some (if JNum.lt (JNum.abs x1) (JNum.fin tol) then JNum.fin 0 else x1)
            else newtonCentralIter f tol n x1
        | _, _ => none

/-- The 21-seed battery of `solveEquation`. -/
def startPoints : List JNum :=
  [JNum.fin 0, JNum.fin 1, JNum.fin (-1), JNum.fin 2, JNum.fin (-2),
   JNum.fin 5, JNum.fin (-5), JNum.fin 10, JNum.fin (-10),
   JNum.fin (1/2), JNum.fin (-1/2), JNum.fin (1/10), JNum.fin (-1/10),
   JNum.fin 3, JNum.fin (-3), JNum.fin 7, JNum.fin (-7),
   JNum.fin 20, JNum.fin (-20), JNum.fin 100, JNum.fin (-100)]

/-- Append a candidate root unless it lies within `1e-8` of an already
collected one (the duplicate test of `solveEquation`, part_002 lines
64-67). -/
def pushDedupJ (acc : List JNum) (root : JNum) : List JNum :=
  if acc.any (fun r => JNum.lt (JNum.abs (JNum.sub r root)) (JNum.fin dedupEps)) then acc
  else acc ++ [root]

/-- One collection step of `solveEquation`'s seed loop: a non-null Newton
result is appended unless it lies within `1e-8` of an already collected
root. -/
def collectStep (g : EvalFn) (acc : List JNum) (x0 : JNum) : List JNum :=
  match newtonMethod g x0 100 tolQ with
  | none => acc
  | some root => pushDedupJ acc root

/-- The numeric roots collected by `solveEquation` over the seed battery,
before sorting and formatting. -/
def collectRoots (g : EvalFn) : List JNum :=
  startPoints.foldl (collectStep g) []

/-- The ascending comparator used to model `roots.sort((a, b) => a - b)`;
on the (only reachable) all-finite lists it is the numeric order. -/
def jleB : JNum → JNum → Bool
  | JNum.ninf, _ => true
  | _, JNum.ninf => false
  | JNum.fin a, JNum.fin b => decide (a ≤ b)
  | JNum.fin _, _ => true
  | _, JNum.fin _ => false
  | _, _ => true

/-- Result record of `solveEquation`, with the numeric roots kept as numbers:
the source then maps each root through a pure display-string formatter
(`"0"` / integer / fraction / rounded decimal), which changes neither the
number of roots nor the error field, so it is omitted from the model. -/
structure Solution where
  roots : List JNum
  error : Option String
deriving DecidableEq

/-- The parse-failure message of `solveEquation` (Korean in the source; the
spec renders it as "cannot parse expression"). -/
def parseErrMsg : String := "수식을 파싱할 수 없습니다"

/-- The no-roots message of `solveEquation` (Korean in the source; the spec
renders it as "no solution found"). -/
def noSolMsg : String := "해를 찾을 수 없습니다"

/-- `solveEquation` from the compilation step onward: the compile outcome of
the assembled expression `f` is the abstract parameter (`none` models
`math.compile` throwing, which the source catches and turns into the parse
error). -/
def solveEquation (compiled : Option EvalFn) : Solution :=
  match compiled with
  | none => ⟨[], some parseErrMsg⟩
  | some g =>
      let roots := (collectRoots g).mergeSort jleB
      if roots = [] then ⟨[], some noSolMsg⟩
      else ⟨roots, none⟩

/-! ## Graph.tsx scanners

The graph scanners evaluate the compiled expression only at finite rational
abscissas; their control flow distinguishes a thrown evaluation error from a
non-finite result (`findRoots` breaks out of its bisection on a non-finite
sample but aborts the whole iteration on a throw), so evaluation is modelled
three-valued. -/

/-- Result of one graph-path evaluation: a finite value, a non-finite result
(`NaN` or `±Infinity`), or a thrown error. -/
inductive EvalRes where
  | val (q : ℚ)
  | nonfinite
  | err
deriving DecidableEq

/-- A compiled expression handle as the graph scanners use it. -/
def EvalR : Type := ℚ → EvalRes

/-- The inner 50-iteration bisection of `findRoots` (Graph.tsx lines
108-116).  A non-finite midpoint or left-endpoint sample breaks out of the
loop keeping the current bracket; a thrown evaluation propagates (`none`) to
`findRoots`' surrounding catch. -/
def bisect (f : EvalR) : Nat → ℚ → ℚ → Option (ℚ × ℚ)
  | 0, a, b => some (a, b)
  | j + 1, a, b =>
    let mid := (a + b) / 2
    match f mid with
    | EvalRes.err => none
    | EvalRes.nonfinite => some (a, b)
    | EvalRes.val fm =>
      match f a with
      | EvalRes.err => none
      | EvalRes.nonfinite => some (a, b)
      | EvalRes.val fa =>
        if fa * fm < 0 then bisect f j a mid else bisect f j mid b

/-- Append a candidate root unless it lies within `1e-8` of an already
recorded one (the duplicate test of `findRoots`, Graph.tsx lines 118-119 and
124-125). -/
def pushDedup (roots : List ℚ) (c : ℚ) : List ℚ :=
  if roots.any (fun r => |r - c| < dedupEps) then roots else roots ++ [c]

/-- One iteration of `findRoots`' sampling loop at index `i`, transforming
the state `(roots, prevY)`. -/
def findRootsStep (f : EvalR) (xMin dx : ℚ) (i : Nat) :
    List ℚ × Option ℚ → List ℚ × Option ℚ := fun st =>
  let x := xMin + i * dx
  match f x with
  | EvalRes.err => (st.1, none)
  | EvalRes.nonfinite => (st.1, none)
  | EvalRes.val y =>
    let afterBracket : Option (List ℚ) :=
      match st.2 with
      | some py =>
        if py * y < 0 then
          match bisect f 50 (x - dx) x with
          | none => none
          | some p => some (pushDedup st.1 ((p.1 + p.2) / 2))
        else some st.1
      | none => some st.1
    match afterBracket with
    | none => (st.1, none)
    | some roots1 =>
      let roots2 := if |y| < rootEps then pushDedup roots1 x else roots1
      (roots2, some y)

/-- The sampling loop of `findRoots`, with the number of remaining
iterations as the recursion argument. -/
def findRootsAux (f : EvalR) (xMin dx : ℚ) :
    Nat → Nat → List ℚ × Option ℚ → List ℚ
  | 0, _, st => st.1
  | n + 1, i, st => findRootsAux f xMin dx n (i + 1) (findRootsStep f xMin dx i st)

/-- `findRoots(compiled, xMin, xMax)` of Graph.tsx: 501 samples at
`x_i = xMin + i·dx`, `dx = (xMax - xMin)/500`. -/
def findRoots (f : EvalR) (xMin xMax : ℚ) : List ℚ :=
  findRootsAux f xMin ((xMax - xMin) / 500) 501 0 ([], none)

/-- Kind tag of an extremum (source field `type: 'max' | 'min'`). -/
inductive ExKind where
  | max
  | min
deriving DecidableEq

/-- An extremum record `{x, y, type}` of `findExtrema`. -/
structure Extremum where
  x : ℚ
  y : ℚ
  type : ExKind
deriving DecidableEq

/-- The 50-iteration derivative bisection of `refine` (Graph.tsx lines
63-81), returning the final bracket; any thrown or non-finite sample makes
`refine` return null. -/
def refineAux (f : EvalR) (h : ℚ) : Nat → ℚ → ℚ → Option (ℚ × ℚ)
  | 0, a, b => some (a, b)
  | j + 1, a, b =>
    let mid := (a + b) / 2
    match f (mid - h), f (mid + h) with
    | EvalRes.val fl, EvalRes.val fr =>
      let dm := (fr - fl) / (2 * h)
      match f (a - h), f (a + h) with
      | EvalRes.val fla, EvalRes.val fra =>
        let da := (fra - fla) / (2 * h)
        if da * dm < 0 then refineAux f h j a mid else refineAux f h j mid b
      | _, _ => none
    | _, _ => none

/-- `refine(compiled, a, b, h)` of Graph.tsx: bisection on the estimated
derivative, then `y = f(x)` at the converged midpoint. -/
def refine (f : EvalR) (a b h : ℚ) : Option (ℚ × ℚ) :=
  match refineAux f h 50 a b with
  | none => none
  | some p =>
    let x := (p.1 + p.2) / 2
    match f x with
    | EvalRes.val y => some (x, y)
    | _ => none

/-- One iteration of `findExtrema`'s sampling loop at index `i`,
transforming the state `(extrema, prevDeriv)`. -/
def findExtremaStep (f : EvalR) (xMin dx h : ℚ) (i : Nat) :
    List Extremum × Option ℚ → List Extremum × Option ℚ := fun st =>
  let x := xMin + i * dx
  match f (x - h), f (x + h) with
  | EvalRes.val fl, EvalRes.val fr =>
    let deriv := (fr - fl) / (2 * h)
    let ext1 :=
      match st.2 with
      | some pd =>
        if pd > 0 ∧ deriv < 0 then
          match refine f (x - dx) x h with
          | some p => st.1 ++ [⟨p.1, p.2, ExKind.max⟩]
          | none => st.1
        else if pd < 0 ∧ deriv > 0 then
          match refine f (x - dx) x h with
          | some p => st.1 ++ [⟨p.1, p.2, ExKind.min⟩]
          | none => st.1
        else st.1
      | none => st.1
    (ext1, some deriv)
  | _, _ => (st.1, none)

/-- The sampling loop of `findExtrema`. -/
def findExtremaAux (f : EvalR) (xMin dx h : ℚ) :
    Nat → Nat → List Extremum × Option ℚ → List Extremum
  | 0, _, st => st.1
  | n + 1, i, st => findExtremaAux f xMin dx h n (i + 1) (findExtremaStep f xMin dx h i st)

/-- `findExtrema(compiled, xMin, xMax)` of Graph.tsx: 501 samples of the
central-difference derivative estimate with `h = dx·0.001`, candidates
refined by `refine`. -/
def findExtrema (f : EvalR) (xMin xMax : ℚ) : List Extremum :=
  let dx := (xMax - xMin) / 500
  findExtremaAux f xMin dx (dx * (1 / 1000)) 501 0 ([], none)

/-! ## The numeric antiderivative builder of `draw` (Graph.tsx lines 549-629) -/

/-- The domain restriction and horizontal shift of a plotted function entry
(the fields of `FunctionEntry` the integral builder reads). -/
structure FnEntry where
  dx : ℚ
  domainMin : Option ℚ
  domainMax : Option ℚ
  domainMinOpen : Bool
  domainMaxOpen : Bool
deriving DecidableEq

/-- `inDomain(x, fn)` of Graph.tsx (lines 338-346). -/
def inDomain (x : ℚ) (fn : FnEntry) : Bool :=
  (match fn.domainMin with
   | some m => if fn.domainMinOpen then decide (m < x) else decide (m ≤ x)
   | none => true)
  && (match fn.domainMax with
      | some m => if fn.domainMaxOpen then decide (x < m) else decide (x ≤ m)
      | none => true)

/-- The view parameters the integral builder reads: canvas width `w`, world
center abscissa `cx`, and `scale` (pixels per unit). -/
structure ViewPar where
  w : ℚ
  cx : ℚ
  scale : ℚ
deriving DecidableEq

/-- JS `Math.round` (half toward positive infinity). -/
def jround (q : ℚ) : ℤ := ⌊q + 1/2⌋

/-- `Math.ceil(w / step)` with the pixel step 2. -/
def totalPx (v : ViewPar) : ℕ := (⌈v.w / 2⌉).toNat

/-- `toWorldX` of `draw`. -/
def toWorldX (v : ViewPar) (px : ℚ) : ℚ := (px - v.w / 2) / v.scale + v.cx

/-- `originPx = Math.round((0 - cx) * scale + w / 2)`. -/
def originPx (v : ViewPar) : ℤ := jround ((0 - v.cx) * v.scale + v.w / 2)

/-- `zeroPxIdx = Math.round(originPx / step)`. -/
def zeroPxIdx (v : ViewPar) : ℤ := jround ((originPx v : ℚ) / 2)

/-- The sample value the integral builder uses at pixel index `idx`:
`f(toWorldX(idx·2) - fn.dx)` when that abscissa is in the declared domain
and evaluates to a finite number, unusable (`none`) otherwise.  The three
unusable cases (out of domain, thrown evaluation, non-finite value) are
treated identically by the source (`integralVals[idx] = null; continue`). -/
def sampleVal (f : EvalR) (v : ViewPar) (fn : FnEntry) (idx : ℕ) : Option ℚ :=
  let xVal := toWorldX v (idx * 2) - fn.dx
  if inDomain xVal fn then
    match f xVal with
    | EvalRes.val q => some q
    | _ => none
  else none

/-- One iteration of the rightward accumulation loop at index `idx`
(`s` is `startRight`), transforming `(integralVals, acc)`. -/
def rightStep (f : EvalR) (v : ViewPar) (fn : FnEntry) (s idx : ℕ)
    (vals : List (Option ℚ)) (acc : ℚ) : List (Option ℚ) × ℚ :=
  match sampleVal f v fn idx with
  | none => (vals.set idx none, acc)
  | some y =>
    let acc0 := if idx = s then 0 else acc
    let acc1 :=
      if s < idx ∧ (vals.getD (idx - 1) none).isSome = true then
        let xVal := toWorldX v (idx * 2) - fn.dx
        let prevX := toWorldX v ((idx - 1) * 2) - fn.dx
        match f prevX with
        | EvalRes.val prevF => acc0 + (prevF + y) / 2 * (xVal - prevX)
        | _ => acc0
      else acc0
    (vals.set idx (some acc1), acc1)

/-- The rightward accumulation loop, with the remaining iteration count as
the recursion argument. -/
def rightWalk (f : EvalR) (v : ViewPar) (fn : FnEntry) (s : ℕ) :
    Nat → Nat → List (Option ℚ) × ℚ → List (Option ℚ)
  | 0, _, st => st.1
  | n + 1, idx, st => rightWalk f v fn s n (idx + 1) (rightStep f v fn s idx st.1 st.2)

/-- One iteration of the leftward accumulation loop at index `idx`
(`s` is `startLeft`). -/
def leftStep (f : EvalR) (v : ViewPar) (fn : FnEntry) (s idx : ℕ)
    (vals : List (Option ℚ)) (acc : ℚ) : List (Option ℚ) × ℚ :=
  match sampleVal f v fn idx with
  | none => (vals.set idx none, acc)
  | some y =>
    let acc0 := if idx = s then 0 else acc
    let acc1 :=
      if idx < s ∧ (vals.getD (idx + 1) none).isSome = true then
        let xVal := toWorldX v (idx * 2) - fn.dx
        let nextX := toWorldX v ((idx + 1) * 2) - fn.dx
        match f nextX with
        | EvalRes.val nextF => acc0 + (nextF + y) / 2 * (xVal - nextX)
        | _ => acc0
      else acc0
    (vals.set idx (some acc1), acc1)

/-- The leftward accumulation loop, walking from its start index down to
pixel index 0. -/
def leftWalk (f : EvalR) (v : ViewPar) (fn : FnEntry) (s : ℕ) :
    Nat → List (Option ℚ) × ℚ → List (Option ℚ)
  | 0, st => (leftStep f v fn s 0 st.1 st.2).1
  | idx + 1, st =>
    let st1 := leftStep f v fn s (idx + 1) st.1 st.2
    leftWalk f v fn s idx st1

/-- `startRight = Math.max(0, zeroPxIdx)`. -/
def intStartRight (v : ViewPar) : ℕ := (max 0 (zeroPxIdx v)).toNat

/-- `startLeft = Math.min(totalPx, zeroPxIdx)` (still an integer: it is
negative when the origin lies left of the screen, in which case the left
loop does not run). -/
def intStartLeft (v : ViewPar) : ℤ := min (totalPx v : ℤ) (zeroPxIdx v)

/-- The all-null array `new Array(totalPx + 1).fill(null)`. -/
def intVals0 (v : ViewPar) : List (Option ℚ) := List.replicate (totalPx v + 1) none

/-- The array after the anchor write `integralVals[zeroPxIdx] = 0` (guarded
by `0 <= zeroPxIdx <= totalPx`). -/
def intVals1 (v : ViewPar) : List (Option ℚ) :=
  if 0 ≤ zeroPxIdx v ∧ zeroPxIdx v ≤ (totalPx v : ℤ) then
    (intVals0 v).set (zeroPxIdx v).toNat (some 0)
  else intVals0 v

/-- The array after the rightward walk over `startRight..totalPx`. -/
def intVals2 (f : EvalR) (v : ViewPar) (fn : FnEntry) : List (Option ℚ) :=
  rightWalk f v fn (intStartRight v) (totalPx v + 1 - intStartRight v) (intStartRight v)
    (intVals1 v, 0)

/-- The complete `integralVals` computation of `draw`: all-null array of
size `totalPx + 1`, anchor 0 written at `zeroPxIdx` when on-screen, then the
rightward walk from `startRight = max(0, zeroPxIdx)` and the leftward walk
from `startLeft = min(totalPx, zeroPxIdx)` down to pixel 0. -/
def integralVals (f : EvalR) (v : ViewPar) (fn : FnEntry) : List (Option ℚ) :=
  if 0 ≤ intStartLeft v then
    leftWalk f v fn (intStartLeft v).toNat (intStartLeft v).toNat (intVals2 f v fn, 0)
  else intVals2 f v fn

/-! ## The textual assembly of `f` in `solveEquation` (part_002, lines 14-48)

Texts are modelled as `List Char`; `jsSplit` is the semantics of the
JavaScript `String.split` with a single-character separator. -/

/-- JS `eq.split(sep)`: the list of (possibly empty) segments between all
occurrences of `sep`. -/
def jsSplit (sep : Char) : List Char → List (List Char)
  | [] => [[]]
  | c :: cs =>
    if c = sep then [] :: jsSplit sep cs
    else
      match jsSplit sep cs with
      | s :: rest => (c :: s) :: rest
      | [] => [[c]]

/-- `equation.replace(/\s+/g, '')`: strip all whitespace. -/
def stripWS (l : List Char) : List Char := l.filter (fun c => !c.isWhitespace)

/-- Assemble the expression text `(lhs) - (rhs)`. -/
def mkFExpr (lhs rhs : List Char) : List Char :=
  ('(' :: lhs) ++ (") - (".toList ++ rhs) ++ [')']

/-- The expression text `fExpr` that `solveEquation` compiles: whitespace is
stripped, then the text is split on `=`; with at least one `=` present, the
code takes `parts[0]` and `parts[1]` of the full split, otherwise the whole
text and `"0"`. -/
def solveEqFExpr (text : List Char) : List Char :=
  let eq := stripWS text
  if eq.contains '=' then
    let parts := jsSplit '=' eq
    mkFExpr (parts.getD 0 []) (parts.getD 1 [])
  else mkFExpr eq ['0']

/-- Modelled from the spec: the claim's reading of the split — `f` is the
text before the first `=` minus the whole text after the first `=`.  This
definition exists only to be compared against `solveEqFExpr`, which is the
code's actual assembly. -/
def claimFExpr (text : List Char) : List Char :=
  let eq := stripWS text
  if eq.contains '=' then
    mkFExpr (eq.takeWhile (fun c => c ≠ '='))
      ((eq.dropWhile (fun c => c ≠ '=')).drop 1)
  else mkFExpr eq ['0']

/-- The amended description of the split: the right-hand side is the segment
strictly between the first and the second `=` (everything from the second
`=` on is discarded). -/
def amendedFExpr (text : List Char) : List Char :=
  let eq := stripWS text
  if eq.contains '=' then
    mkFExpr (eq.takeWhile (fun c => c ≠ '='))
      (((eq.dropWhile (fun c => c ≠ '=')).drop 1).takeWhile (fun c => c ≠ '='))
  else mkFExpr eq ['0']

/-! ## Concrete handles and parameters used in counterexamples and witnesses -/

/-- A handle whose evaluation never fails and is constantly `0` (e.g. the
compilation of `(0) - (0)`). -/
def g0 : EvalFn := fun _ => some (JNum.fin 0)

/-- A handle whose evaluation never fails and is constantly `1` (e.g. the
compilation of `(1) - (0)`). -/
def gone : EvalFn := fun _ => some (JNum.fin 1)

/-- A handle distinguishing the forward-difference solver from the central
difference one at seed `0`: `f(0) = 1`, `f(h) = 1`, `f(-h) = 2`,
`f(2h) = 0`, and `1` elsewhere (`h = 1e-8`). -/
def fC1 : EvalFn := fun t =>
  if t = JNum.fin 0 then some (JNum.fin 1)
  else if t = JNum.fin (1/100000000) then some (JNum.fin 1)
  else if t = JNum.fin (-1/100000000) then some (JNum.fin 2)
  else if t = JNum.fin (1/50000000) then some (JNum.fin 0)
  else some (JNum.fin 1)

/-- A graph handle that is constantly `0` (e.g. a plot of `0`). -/
def czero : EvalR := fun _ => EvalRes.val 0

/-- A graph handle that is constantly `1`. -/
def oneR : EvalR := fun _ => EvalRes.val 1

/-- The graph handle of `x^2`. -/
def sqE : EvalR := fun q => EvalRes.val (q * q)

/-- A 12-pixel-wide centered view at scale 1: `totalPx = 6`, sample
abscissas `-6, -4, -2, 0, 2, 4, 6`, origin pixel index 3. -/
def vCE : ViewPar := ⟨12, 0, 1⟩

/-- A function entry with no domain restriction and no shift. -/
def fnCE : FnEntry := ⟨0, none, none, false, false⟩

/-- A graph handle undefined exactly at `x = 4` (one interior sample of
`vCE`) and constantly `1` elsewhere. -/
def fC3 : EvalR := fun x => if x = 4 then EvalRes.err else EvalRes.val 1

/-- A graph handle undefined exactly at `x = 0` (the origin sample of
`vCE`) and constantly `1` elsewhere. -/
def fC7 : EvalR := fun x => if x = 0 then EvalRes.err else EvalRes.val 1

/-- Check that an extremum is a `min` whose coordinates are both within
`1e-6` of `0`. -/
def isMinNearZero (e : Extremum) : Bool :=
  decide (e.type = ExKind.min) && decide (|e.x| < 1/1000000) && decide (|e.y| < 1/1000000)

set_option maxRecDepth 100000

/-! ## Theorems -/


unseal Rat.add Rat.sub Rat.mul Rat.inv in
/-- Claim C1, counterexample.  The claim says `newtonMethod` estimates the
derivative by the central difference `(f(x+h) - f(x-h))/(2h)` with
`h = 1e-8` and returns null when that estimate has magnitude below `1e-15`.
On the handle `fC1` at seed `0` the central estimate is `-5·10^7` (far above
the threshold) and the central-difference solver of the spec converges to
`2e-8`, yet the code returns null — because it actually computes the forward
difference `(f(x+h) - f(x))/h = 0` and takes the flat-derivative exit. -/
theorem claim_C1_counterexample :
    newtonMethod fC1 (JNum.fin 0) 100 tolQ = none ∧
    newtonCentralIter fC1 tolQ 100 (JNum.fin 0) = some (JNum.fin (1/50000000)) ∧
    newtonMethod fC1 (JNum.fin 0) 100 tolQ ≠ newtonCentralIter fC1 tolQ 100 (JNum.fin 0) := by
  exact ⟨by decide, by decide, by decide⟩

/-- Claim C2, counterexample.  The claim says the solved function is (text
before the first `=`) minus (text after the first `=`); on `"1=2=3"` the
code builds `(1) - (2)` — the segment between the first and second `=` —
while the claim's reading gives `(1) - (2=3)`. -/
theorem claim_C2_counterexample :
    solveEqFExpr ("1=2=3".toList) = "(1) - (2)".toList ∧
    claimFExpr ("1=2=3".toList) = "(1) - (2=3)".toList ∧
    solveEqFExpr ("1=2=3".toList) ≠ claimFExpr ("1=2=3".toList) := by
  exact ⟨by decide, by decide, by decide⟩

unseal Rat.add Rat.sub Rat.mul Rat.inv in
/-- Claim C3, counterexample.  On the view `vCE` the right walk runs over
the samples `x = 0, 2, 4, 6` (pixel indices 3..6); `fC3` is unusable exactly
at `x = 4` (index 5).  The accumulated value reaches `2` at index 4, index 5
is a gap (no value), and the first sample after the gap (index 6) receives
the pre-gap accumulated amount `2` — the `acc` register is not reset at a
gap, contradicting the claim that no accumulated amount is carried over. -/
theorem claim_C3_counterexample :
    (integralVals fC3 vCE fnCE).getD 4 none = some 2 ∧
    (integralVals fC3 vCE fnCE).getD 5 none = none ∧
    (integralVals fC3 vCE fnCE).getD 6 none = some 2 := by
  exact ⟨by decide, by decide, by decide⟩

unseal Rat.add Rat.sub Rat.mul Rat.inv in
/-- Claim C7, counterexample.  On the view `vCE` the sample nearest `x = 0`
is pixel index 3 at abscissa `0`; `fC7` fails to evaluate there, and the
walks overwrite the anchored `0` with no-value, so the accumulated value at
the origin sample is not `0`. -/
theorem claim_C7_counterexample :
    (integralVals fC7 vCE fnCE).getD 3 none = none ∧
    (integralVals fC7 vCE fnCE).getD 3 none ≠ some 0 := by
  exact ⟨by decide, by decide⟩

unseal Rat.add Rat.sub Rat.mul Rat.inv in
/-- Claim C8, counterexample.  On `x^2` over `[-10, 10]` the sample grid
contains `x = 0` exactly, where the central-difference derivative estimate
is exactly `0`; the strict sign-change tests (`prev > 0 ∧ cur < 0`,
`prev < 0 ∧ cur > 0`) fire on neither side of a zero sample, so
`findExtrema` returns no extremum at all — not the single minimum the claim
asserts. -/
theorem claim_C8_counterexample : findExtrema sqE (-10) 10 = [] := by decide

unseal Rat.add Rat.sub Rat.mul Rat.inv in
/-- Claim C8, amended: over `[-10, 10]` the extremum scanner on `x^2`
returns the empty list (the derivative estimate is exactly zero at the
sample `x = 0`, defeating the strict sign-change tests); over an interval
whose sample grid straddles `x = 0` without containing it, such as
`[-10, 11]`, it returns exactly one extremum, of kind `min`, with both
coordinates within `1e-6` of `0`. -/
theorem claim_C8_theorem :
    findExtrema sqE (-10) 10 = [] ∧
    (findExtrema sqE (-10) 11).length = 1 ∧
    (findExtrema sqE (-10) 11).all isMinNearZero = true := by
  exact ⟨by decide, by decide, by decide⟩

unseal Rat.add Rat.sub Rat.mul Rat.inv in
/-- Claim C10, counterexample.  The claim says every non-null value returned
by `newtonMethod` is finite for every seed; with the constant-zero handle
and the seed `Infinity`, the first iteration takes the `|f(x)| < tol` exit
and returns the seed unchanged — `Infinity`, a non-finite result. -/
theorem claim_C10_counterexample :
    newtonMethod g0 JNum.inf 100 tolQ = some JNum.inf ∧
    JNum.isFin JNum.inf = false := by
  exact ⟨by decide, by decide⟩

/-- On a zero-width interval the sampled abscissa is always `xMin` itself. -/
lemma findRootsStep_zero_dx (f : EvalR) (x : ℚ) (i : Nat) (st : List ℚ × Option ℚ) :
    findRootsStep f x 0 i st = findRootsStep f x 0 0 st := by
  simp only [findRootsStep, mul_zero, add_zero, Nat.cast_zero, zero_mul, sub_zero]

/-- If the (constant) sample is unusable, the zero-width loop never changes
its root list. -/
lemma findRootsAux_zero_err (f : EvalR) (x : ℚ)
    (hf : f x = EvalRes.err ∨ f x = EvalRes.nonfinite) :
    ∀ (n i : Nat) (roots : List ℚ),
      findRootsAux f x 0 n i (roots, none) = roots := by
  intro n
  induction n with
  | zero => intro i roots; rfl
  | succ n ih =>
    intro i roots
    have hstep : findRootsStep f x 0 i (roots, none) = (roots, none) := by
      simp only [findRootsStep, mul_zero, add_zero]
      rcases hf with h | h <;> rw [h]
    rw [findRootsAux, hstep, ih]

/-- If the (constant) sample has value `y` and the current root list already
absorbs any `|y| < 1e-12` push, the zero-width loop is stationary. -/
lemma findRootsAux_zero_fix (f : EvalR) (x y : ℚ) (roots : List ℚ)
    (hf : f x = EvalRes.val y)
    (hdup : |y| < rootEps → roots.any (fun r => |r - x| < dedupEps) = true) :
    ∀ (n i : Nat), findRootsAux f x 0 n i (roots, some y) = roots := by
  intro n
  induction n with
  | zero => intro i; rfl
  | succ n ih =>
    intro i
    have hyy : ¬ y * y < 0 := not_lt.mpr (mul_self_nonneg y)
    have hstep : findRootsStep f x 0 i (roots, some y) = (roots, some y) := by
      simp only [findRootsStep, mul_zero, add_zero]
      rw [hf]
      simp only [hyy, if_false]
      by_cases hy : |y| < rootEps
      · simp [hy, pushDedup, hdup hy]
      · simp [hy]
    rw [findRootsAux, hstep, ih]

/-- Characterization of `findRoots` on a zero-width interval: empty unless
the sample at `xMin` evaluates to a finite `y` with `|y| < 1e-12`, in which
case the single sample point is reported. -/
lemma findRoots_zero_width (f : EvalR) (x : ℚ) :
    findRoots f x x =
      (match f x with
       | EvalRes.val y => if |y| < rootEps then [x] else []
       | _ => []) := by
  have hdx : (x - x) / 500 = (0 : ℚ) := by rw [sub_self, zero_div]
  rw [findRoots, hdx]
  rcases hcase : f x with y | _ | _
  · have hstep : findRootsStep f x 0 0 ([], none) =
        ((if |y| < rootEps then [x] else []), some y) := by
      simp only [findRootsStep, Nat.cast_zero, zero_mul, add_zero, mul_zero]
      rw [hcase]
      by_cases hy : |y| < rootEps <;> simp [hy, pushDedup]
    rw [show (501 : Nat) = 500 + 1 from rfl, findRootsAux, hstep]
    by_cases hy : |y| < rootEps
    · simp only [hy, if_true]
      rw [findRootsAux_zero_fix f x y [x] hcase]
      intro _
      simp only [List.any_cons, List.any_nil, Bool.or_false]
      have : |x - x| < dedupEps := by
        rw [sub_self, abs_zero]; norm_num [dedupEps]
      simpa using this
    · simp only [hy, if_false]
      rw [findRootsAux_zero_fix f x y [] hcase]
      intro hy2; exact absurd hy2 hy
  · rw [findRootsAux_zero_err f x (Or.inr hcase)]
  · rw [findRootsAux_zero_err f x (Or.inl hcase)]

/-- Claim C4, counterexample.  The claim says `findRoots` on a zero-width
interval returns the empty sequence for every handle; on the constant-zero
handle the `|f(x)| < 1e-12` branch records the (single) sample point, so
the result is `[0]`, not `[]`. -/
theorem claim_C4_counterexample :
    findRoots czero 0 0 = [0] ∧ findRoots czero 0 0 ≠ [] := by
  have h := findRoots_zero_width czero 0
  have hc : czero 0 = EvalRes.val 0 := rfl
  rw [hc] at h
  have h0 : |(0 : ℚ)| < rootEps := by norm_num [rootEps]
  simp only [h0, if_true] at h
  exact ⟨h, by rw [h]; simp⟩

/-- Claim C4, amended: `findRoots` on a zero-width interval `[x, x]` returns
the empty sequence unless the sample at `x` evaluates to a finite value `y`
with `|y| < 1e-12`, in which case it returns the one-element sequence
`[x]`. -/
theorem claim_C4_theorem (f : EvalR) (x : ℚ) :
    findRoots f x x =
      (match f x with
       | EvalRes.val y => if |y| < rootEps then [x] else []
       | _ => []) :=
  findRoots_zero_width f x

/-- Claim C1, amended: at every iteration the Newton solver estimates the
derivative by the forward difference `(f(x+h) - f(x))/h` with `h = 1e-8`
(not the central difference), and returns null when that estimate has
magnitude below `1e-15`: whenever both evaluations succeed, `f(x)` is finite
and not yet below `tol`, and the forward-difference estimate is smaller than
`1e-15` in magnitude, the iteration returns null. -/
theorem claim_C1_theorem (f : EvalFn) (tol : ℚ) (n : Nat) (x fx fxh : JNum)
    (hx : f x = some fx) (hxh : f (JNum.add x hN) = some fxh)
    (hfin : JNum.isFin fx = true)
    (hbig : JNum.lt (JNum.abs fx) (JNum.fin tol) = false)
    (hsmall : JNum.lt (JNum.abs (JNum.div (JNum.sub fxh fx) hN)) (JNum.fin derivEps) = true) :
    newtonIter f tol (n + 1) x = none := by
  rw [newtonIter, hx, hxh]
  simp only [hfin, hbig, hsmall]
  simp

unseal Rat.add Rat.sub Rat.mul Rat.inv in
/-- Witness for claim C1: on the constant-one handle at seed `0` the forward
difference is `0 < 1e-15`, and one Newton iteration indeed returns null. -/
theorem claim_C1_witness : newtonIter gone tolQ 1 (JNum.fin 0) = none :=
  claim_C1_theorem gone tolQ 0 (JNum.fin 0) (JNum.fin 1) (JNum.fin 1) rfl rfl rfl
    (by decide) (by decide)

/-- Claim C10, amended: for every handle, every finite seed, every iteration
bound and every tolerance, every non-null value returned by `newtonMethod`
is finite — the non-finite escape exists only for non-finite seeds, because
the `|f(x)| < tol` exit can return the unchecked seed itself. -/
theorem claim_C10_theorem (f : EvalFn) (tol : ℚ) :
    ∀ (n : Nat) (x r : JNum), JNum.isFin x = true →
      newtonIter f tol n x = some r → JNum.isFin r = true := by
  intro n
  induction n with
  | zero =>
    intro x r hx hr
    rw [newtonIter, newtonFinal] at hr
    rcases hfx : f x with _ | fx <;> rw [hfx] at hr
    · exact absurd hr (by simp)
    · simp only at hr
      by_cases hlt : JNum.lt (JNum.abs fx) (JNum.fin looseTol) = true
      · rw [if_pos hlt] at hr
        cases hr
        exact hx
      · rw [if_neg hlt] at hr
        exact absurd hr (by simp)
  | succ n ih =>
    intro x r hx hr
    rw [newtonIter] at hr
    rcases hfx : f x with _ | fx <;> rw [hfx] at hr
    · exact absurd hr (by simp)
    rcases hfxh : f (JNum.add x hN) with _ | fxh <;> rw [hfxh] at hr
    · exact absurd hr (by simp)
    simp only at hr
    by_cases h1 : JNum.isFin fx = false
    · rw [if_pos h1] at hr
      exact absurd hr (by simp)
    rw [if_neg h1] at hr
    by_cases h2 : JNum.lt (JNum.abs fx) (JNum.fin tol) = true
    · rw [if_pos h2] at hr
      by_cases h3 : JNum.lt (JNum.abs x) (JNum.fin tol) = true
      · rw [if_pos h3] at hr; cases hr; rfl
      · rw [if_neg h3] at hr; cases hr; exact hx
    rw [if_neg h2] at hr
    by_cases h4 : JNum.lt (JNum.abs (JNum.div (JNum.sub fxh fx) hN)) (JNum.fin derivEps) = true
    · rw [if_pos h4] at hr
      exact absurd hr (by simp)
    rw [if_neg h4] at hr
    by_cases h5 : JNum.isFin (JNum.sub x (JNum.div fx (JNum.div (JNum.sub fxh fx) hN))) = false
    · rw [if_pos h5] at hr
      exact absurd hr (by simp)
    rw [if_neg h5] at hr
    have h5t : JNum.isFin (JNum.sub x (JNum.div fx (JNum.div (JNum.sub fxh fx) hN))) = true := by
      revert h5
      cases JNum.isFin (JNum.sub x (JNum.div fx (JNum.div (JNum.sub fxh fx) hN))) <;> simp
    by_cases h6 : JNum.lt (JNum.abs (JNum.sub (JNum.sub x (JNum.div fx (JNum.div (JNum.sub fxh fx) hN))) x)) (JNum.fin tol) = true
    · rw [if_pos h6] at hr
      by_cases h7 : JNum.lt (JNum.abs (JNum.sub x (JNum.div fx (JNum.div (JNum.sub fxh fx) hN)))) (JNum.fin tol) = true
      · rw [if_pos h7] at hr; cases hr; rfl
      · rw [if_neg h7] at hr; cases hr; exact h5t
    rw [if_neg h6] at hr
    exact ih _ r h5t hr

unseal Rat.add Rat.sub Rat.mul Rat.inv in
/-- Witness for claim C10: starting from the finite seed `5` on the
constant-zero handle, one iteration converges and the returned value is
finite. -/
theorem claim_C10_witness : JNum.isFin (JNum.fin 5) = true :=
  claim_C10_theorem g0 tolQ 1 (JNum.fin 5) (JNum.fin 5) rfl (by decide)

/-- A JS split never produces the empty list of segments. -/
lemma jsSplit_ne_nil (sep : Char) (l : List Char) : jsSplit sep l ≠ [] := by
  cases l with
  | nil => simp [jsSplit]
  | cons c cs =>
    rw [jsSplit]
    by_cases h : c = sep
    · simp [h]
    · rw [if_neg h]
      rcases jsSplit sep cs with _ | ⟨s, rest⟩ <;> simp

/-- The head of a JS split is the prefix before the first separator. -/
lemma jsSplit_getD_zero (sep : Char) (l : List Char) :
    (jsSplit sep l).getD 0 [] = l.takeWhile (fun c => c ≠ sep) := by
  induction l with
  | nil => rfl
  | cons c cs ih =>
    by_cases h : c = sep
    · subst h
      rw [jsSplit, if_pos rfl]
      simp [List.takeWhile_cons]
    · rw [jsSplit, if_neg h]
      rcases hs : jsSplit sep cs with _ | ⟨s, rest⟩
      · exact absurd hs (jsSplit_ne_nil sep cs)
      · rw [hs] at ih
        simp only [List.getD_cons_zero] at ih ⊢
        rw [List.takeWhile_cons]
        simp only [decide_not]
        simp only [decide_not] at ih
        simp [h, ih]

/-- The second element of a JS split is the segment strictly between the
first and the second separator, provided a separator occurs at all. -/
lemma jsSplit_getD_one (sep : Char) (l : List Char) (hmem : sep ∈ l) :
    (jsSplit sep l).getD 1 [] =
      ((l.dropWhile (fun c => c ≠ sep)).drop 1).takeWhile (fun c => c ≠ sep) := by
  induction l with
  | nil => cases hmem
  | cons c cs ih =>
    by_cases h : c = sep
    · subst h
      rw [jsSplit, if_pos rfl]
      rw [List.getD_cons_succ]
      have hdw : List.dropWhile (fun x => decide (x ≠ c)) (c :: cs) = c :: cs := by
        rw [List.dropWhile_cons]
        simp
      rw [hdw]
      simp only [List.drop_succ_cons, List.drop_zero]
      exact jsSplit_getD_zero c cs
    · have hmem2 : sep ∈ cs := by
        rcases List.mem_cons.mp hmem with h1 | h1
        · exact absurd h1.symm h
        · exact h1
      rw [jsSplit, if_neg h]
      have ihv := ih hmem2
      rcases hs : jsSplit sep cs with _ | ⟨s, rest⟩
      · exact absurd hs (jsSplit_ne_nil sep cs)
      · rw [hs] at ihv
        rw [List.getD_cons_succ] at ihv ⊢
        have hc : decide (c ≠ sep) = true := by simpa using h
        rw [List.dropWhile_cons]
        simp only [hc, if_true]
        exact ihv

/-- Claim C2, amended: after whitespace-stripping, a text containing at
least one `=` yields `f = (segment before the first =) - (segment strictly
between the first and the second =)` — anything from a second `=` onward is
discarded; a text with no `=` yields `f = (text) - (0)`. -/
theorem claim_C2_theorem (text : List Char) : solveEqFExpr text = amendedFExpr text := by
  rw [solveEqFExpr, amendedFExpr]
  by_cases h : (stripWS text).contains '=' = true
  · have hmem : '=' ∈ stripWS text := by
      simpa using h
    rw [if_pos h, if_pos h]
    show mkFExpr ((jsSplit '=' (stripWS text)).getD 0 [])
        ((jsSplit '=' (stripWS text)).getD 1 []) = _
    rw [jsSplit_getD_zero, jsSplit_getD_one _ _ hmem]
  · rw [if_neg h, if_neg h]

/-- A deduplicating push preserves pairwise 1e-8 separation of the root
list. -/
lemma pushDedup_pairwise (roots : List ℚ) (c : ℚ)
    (hp : roots.Pairwise (fun a b => ¬ |a - b| < dedupEps)) :
    (pushDedup roots c).Pairwise (fun a b => ¬ |a - b| < dedupEps) := by
  rw [pushDedup]
  by_cases h : (roots.any fun r => decide (|r - c| < dedupEps)) = true
  · rw [if_pos h]; exact hp
  · rw [if_neg h]
    rw [List.pairwise_append]
    refine ⟨hp, List.pairwise_singleton _ _, ?_⟩
    intro a ha b hb
    rw [List.mem_singleton] at hb
    subst hb
    intro habs
    exact h (List.any_eq_true.mpr ⟨a, ha, by simpa using habs⟩)

/-- Each sampling iteration of `findRoots` preserves pairwise separation. -/
lemma findRootsStep_pairwise (f : EvalR) (xMin dx : ℚ) (i : Nat)
    (roots : List ℚ) (prevY : Option ℚ)
    (hp : roots.Pairwise (fun a b => ¬ |a - b| < dedupEps)) :
    (findRootsStep f xMin dx i (roots, prevY)).1.Pairwise (fun a b => ¬ |a - b| < dedupEps) := by
  rw [findRootsStep]
  rcases hf : f (xMin + i * dx) with y | _ | _
  · dsimp only
    rcases prevY with _ | py
    · dsimp only
      by_cases hy : |y| < rootEps
      · simp only [hy, if_true]
        exact pushDedup_pairwise _ _ hp
      · simp only [hy, if_false]
        exact hp
    · dsimp only
      by_cases hpy : py * y < 0
      · simp only [hpy, if_true]
        rcases hb : bisect f 50 (xMin + i * dx - dx) (xMin + i * dx) with _ | p
        · dsimp only
          exact hp
        · dsimp only
          have h1 := pushDedup_pairwise roots ((p.1 + p.2) / 2) hp
          by_cases hy : |y| < rootEps
          · simp only [hy, if_true]
            exact pushDedup_pairwise _ _ h1
          · simp only [hy, if_false]
            exact h1
      · simp only [hpy, if_false]
        by_cases hy : |y| < rootEps
        · simp only [hy, if_true]
          exact pushDedup_pairwise _ _ hp
        · simp only [hy, if_false]
          exact hp
  · exact hp
  · exact hp

/-- The whole `findRoots` loop preserves pairwise separation. -/
lemma findRootsAux_pairwise (f : EvalR) (xMin dx : ℚ) :
    ∀ (n i : Nat) (st : List ℚ × Option ℚ),
      st.1.Pairwise (fun a b => ¬ |a - b| < dedupEps) →
      (findRootsAux f xMin dx n i st).Pairwise (fun a b => ¬ |a - b| < dedupEps) := by
  intro n
  induction n with
  | zero => intro i st hp; exact hp
  | succ n ih =>
    intro i st hp
    rw [findRootsAux]
    exact ih (i + 1) _ (findRootsStep_pairwise f xMin dx i st.1 st.2 hp)

/-- A deduplicating push preserves pairwise separation of collected Newton
roots (JS-number version; the separation predicate is the negation of the
source's duplicate test `Math.abs(r - root) < 1e-8`). -/
lemma pushDedupJ_pairwise (acc : List JNum) (c : JNum)
    (hp : acc.Pairwise (fun a b => JNum.lt (JNum.abs (JNum.sub a b)) (JNum.fin dedupEps) = false)) :
    (pushDedupJ acc c).Pairwise
      (fun a b => JNum.lt (JNum.abs (JNum.sub a b)) (JNum.fin dedupEps) = false) := by
  rw [pushDedupJ]
  by_cases h : (acc.any fun r => JNum.lt (JNum.abs (JNum.sub r c)) (JNum.fin dedupEps)) = true
  · rw [if_pos h]; exact hp
  · rw [if_neg h]
    rw [List.pairwise_append]
    refine ⟨hp, List.pairwise_singleton _ _, ?_⟩
    intro a ha b hb
    rw [List.mem_singleton] at hb
    subst hb
    rcases hv : JNum.lt (JNum.abs (JNum.sub a b)) (JNum.fin dedupEps) with _ | _
    · rfl
    · exact absurd (List.any_eq_true.mpr ⟨a, ha, hv⟩) h

/-- The seed fold of `solveEquation` preserves pairwise separation. -/
lemma collect_foldl_pairwise (g : EvalFn) :
    ∀ (l : List JNum) (acc : List JNum),
      acc.Pairwise (fun a b => JNum.lt (JNum.abs (JNum.sub a b)) (JNum.fin dedupEps) = false) →
      (l.foldl (collectStep g) acc).Pairwise
        (fun a b => JNum.lt (JNum.abs (JNum.sub a b)) (JNum.fin dedupEps) = false) := by
  intro l
  induction l with
  | nil => intro acc hp; exact hp
  | cons x0 xs ih =>
    intro acc hp
    rw [List.foldl_cons]
    refine ih _ ?_
    rw [collectStep]
    rcases newtonMethod g x0 100 tolQ with _ | root
    · exact hp
    · exact pushDedupJ_pairwise acc root hp

/-- Claim C6: no two values returned by `findRoots` lie within `1e-8` of
each other, and no two numeric roots collected by `solveEquation` (before
formatting) lie within `1e-8` of each other — each candidate is appended
only after the `1e-8` duplicate test against every already collected
root. -/
theorem claim_C6_theorem :
    (∀ (f : EvalR) (xMin xMax : ℚ),
       (findRoots f xMin xMax).Pairwise (fun a b => ¬ |a - b| < dedupEps)) ∧
    (∀ g : EvalFn,
       (collectRoots g).Pairwise
         (fun a b => JNum.lt (JNum.abs (JNum.sub a b)) (JNum.fin dedupEps) = false)) := by
  constructor
  · intro f xMin xMax
    exact findRootsAux_pairwise f xMin _ 501 0 ([], none) List.Pairwise.nil
  · intro g
    exact collect_foldl_pairwise g startPoints [] List.Pairwise.nil

/-- A deduplicating push never empties the list. -/
lemma pushDedupJ_ne_nil (acc : List JNum) (c : JNum) : pushDedupJ acc c ≠ [] := by
  rw [pushDedupJ]
  rcases acc with _ | ⟨a, l⟩
  · simp
  · split <;> simp

/-- The seed fold of `solveEquation` ends empty exactly when it started
empty and every seed's Newton run returned null. -/
lemma collect_foldl_eq_nil_iff (g : EvalFn) :
    ∀ (l : List JNum) (acc : List JNum),
      l.foldl (collectStep g) acc = [] ↔
        (acc = [] ∧ ∀ x0 ∈ l, newtonMethod g x0 100 tolQ = none) := by
  intro l
  induction l with
  | nil => intro acc; simp
  | cons x xs ih =>
    intro acc
    rw [List.foldl_cons, ih]
    have hstep : collectStep g acc x = [] ↔
        (acc = [] ∧ newtonMethod g x 100 tolQ = none) := by
      rw [collectStep]
      rcases hn : newtonMethod g x 100 tolQ with _ | root
      · simp
      · simp [pushDedupJ_ne_nil acc root]
    rw [hstep]
    constructor
    · rintro ⟨⟨hacc, hx⟩, hxs⟩
      refine ⟨hacc, ?_⟩
      intro x0 hx0
      rcases List.mem_cons.mp hx0 with h | h
      · subst h; exact hx
      · exact hxs x0 h
    · rintro ⟨hacc, hall⟩
      exact ⟨⟨hacc, hall x (List.mem_cons_self x xs)⟩,
        fun x0 hx0 => hall x0 (List.mem_cons_of_mem x hx0)⟩

/-- The collected roots are empty exactly when every seed diverges. -/
lemma collectRoots_eq_nil_iff (g : EvalFn) :
    collectRoots g = [] ↔ ∀ x0 ∈ startPoints, newtonMethod g x0 100 tolQ = none := by
  rw [collectRoots, collect_foldl_eq_nil_iff]
  simp

/-- The sorted root list of `solveEquation` is empty exactly when the
collected roots are. -/
lemma mergeSort_collect_eq_nil_iff (g : EvalFn) :
    (collectRoots g).mergeSort jleB = [] ↔ collectRoots g = [] := by
  constructor
  · intro h
    have := (List.mergeSort_perm (collectRoots g) jleB).length_eq
    rw [h] at this
    exact List.length_eq_zero.mp this.symm
  · intro h
    rw [h]
    exact List.mergeSort_nil

/-- Claim C5: `solveEquation` returns the parse-error message with an empty
root list exactly when compiling `f` fails; the no-solution message with an
empty root list exactly when compilation succeeds but every seed of the
21-seed battery returns null; and otherwise a non-empty root list with no
error field.  (The error strings are the source's Korean literals, which
the spec renders as "cannot parse expression" / "no solution found"; the
numeric model keeps the roots as numbers, the source maps each through a
pure display formatter that preserves the count.) -/
theorem claim_C5_theorem (c : Option EvalFn) :
    ((solveEquation c).error = some parseErrMsg ∧ (solveEquation c).roots = [] ↔
       c = none) ∧
    ((solveEquation c).error = some noSolMsg ∧ (solveEquation c).roots = [] ↔
       ∃ g, c = some g ∧ ∀ x0 ∈ startPoints, newtonMethod g x0 100 tolQ = none) ∧
    (∀ g, c = some g → ¬ (∀ x0 ∈ startPoints, newtonMethod g x0 100 tolQ = none) →
       (solveEquation c).roots ≠ [] ∧ (solveEquation c).error = none) := by
  have hmsg : parseErrMsg ≠ noSolMsg := by decide
  rcases c with _ | g
  · refine ⟨⟨fun _ => rfl, fun _ => ⟨rfl, rfl⟩⟩, ⟨?_, ?_⟩, ?_⟩
    · rintro ⟨habs, -⟩
      have : parseErrMsg = noSolMsg := by
        have h := habs
        rw [show (solveEquation none).error = some parseErrMsg from rfl] at h
        exact Option.some.inj h
      exact absurd this hmsg
    · rintro ⟨g, hg, -⟩
      cases hg
    · intro g hg
      cases hg
  · have hse : solveEquation (some g) =
        (if (collectRoots g).mergeSort jleB = [] then ⟨[], some noSolMsg⟩
         else ⟨(collectRoots g).mergeSort jleB, none⟩ : Solution) := rfl
    by_cases hL : (collectRoots g).mergeSort jleB = []
    · have hall : ∀ x0 ∈ startPoints, newtonMethod g x0 100 tolQ = none :=
        (collectRoots_eq_nil_iff g).mp ((mergeSort_collect_eq_nil_iff g).mp hL)
      rw [hse, if_pos hL]
      refine ⟨⟨?_, ?_⟩, ⟨fun _ => ⟨g, rfl, hall⟩, fun _ => ⟨rfl, rfl⟩⟩, ?_⟩
      · rintro ⟨habs, -⟩
        exact absurd (Option.some.inj habs).symm hmsg
      · rintro ⟨⟩
      · intro g' hg' hnot
        cases hg'
        exact absurd hall hnot
    · rw [hse, if_neg hL]
      refine ⟨⟨?_, ?_⟩, ⟨?_, ?_⟩, ?_⟩
      · rintro ⟨habs, -⟩
        cases habs
      · rintro ⟨⟩
      · rintro ⟨habs, -⟩
        cases habs
      · rintro ⟨g', hg', hall⟩
        cases hg'
        exact absurd ((mergeSort_collect_eq_nil_iff g).mpr
          ((collectRoots_eq_nil_iff g).mpr hall)) hL
      · intro g' hg' hnot
        cases hg'
        exact ⟨hL, rfl⟩

unseal Rat.add Rat.sub Rat.mul Rat.inv in
/-- Witness for claim C5: the constant-one handle (e.g. `f` compiled from
`1 = 0`) makes every seed's Newton run hit the flat-derivative exit, and
`solveEquation` indeed reports the no-solution message with no roots. -/
theorem claim_C5_witness :
    (solveEquation (some gone)).error = some noSolMsg ∧
    (solveEquation (some gone)).roots = [] :=
  (claim_C5_theorem (some gone)).2.1.mpr ⟨gone, rfl, by decide⟩

/-- Members of a deduplicating push come from the list or are the pushed
candidate. -/
lemma mem_pushDedup {roots : List ℚ} {c r : ℚ} (hr : r ∈ pushDedup roots c) :
    r ∈ roots ∨ r = c := by
  rw [pushDedup] at hr
  split at hr
  · exact Or.inl hr
  · rcases List.mem_append.mp hr with h | h
    · exact Or.inl h
    · exact Or.inr (List.mem_singleton.mp h)

/-- The root bisection of `findRoots` keeps the bracket inside the original
one (also when it breaks early on a non-finite sample). -/
lemma bisect_bounds (f : EvalR) :
    ∀ (n : Nat) (a b : ℚ), a ≤ b → ∀ p, bisect f n a b = some p →
      a ≤ p.1 ∧ p.1 ≤ p.2 ∧ p.2 ≤ b := by
  intro n
  induction n with
  | zero =>
    intro a b hab p hp
    cases hp
    exact ⟨le_refl a, hab, le_refl b⟩
  | succ n ih =>
    intro a b hab p hp
    rw [bisect] at hp
    have hm1 : a ≤ (a + b) / 2 := by linarith
    have hm2 : (a + b) / 2 ≤ b := by linarith
    rcases hm : f ((a + b) / 2) with fm | _ | _ <;> rw [hm] at hp <;> (try dsimp only at hp)
    · rcases ha : f a with fa | _ | _ <;> rw [ha] at hp <;> (try dsimp only at hp)
      · split at hp
        · rcases ih a ((a + b) / 2) hm1 p hp with ⟨h1, h2, h3⟩
          exact ⟨h1, h2, le_trans h3 hm2⟩
        · rcases ih ((a + b) / 2) b hm2 p hp with ⟨h1, h2, h3⟩
          exact ⟨le_trans hm1 h1, h2, h3⟩
      · cases hp
        exact ⟨le_refl a, hab, le_refl b⟩
      · cases hp
    · cases hp
      exact ⟨le_refl a, hab, le_refl b⟩
    · cases hp

/-- Each sampling iteration of `findRoots` keeps all recorded roots inside
`[xMin, xMin + 500·dx]`. -/
lemma findRootsStep_range (f : EvalR) (xMin dx : ℚ) (hdx : 0 ≤ dx) (i : Nat)
    (hi : (i : ℚ) ≤ 500) (roots : List ℚ) (prevY : Option ℚ)
    (hst : ∀ r ∈ roots, xMin ≤ r ∧ r ≤ xMin + 500 * dx)
    (hprev : prevY.isSome = true → (1 : ℚ) ≤ (i : ℚ)) :
    ∀ r ∈ (findRootsStep f xMin dx i (roots, prevY)).1,
      xMin ≤ r ∧ r ≤ xMin + 500 * dx := by
  have hxlo : xMin ≤ xMin + i * dx := by
    have : (0 : ℚ) ≤ i * dx := mul_nonneg (Nat.cast_nonneg i) hdx
    linarith
  have hxhi : xMin + i * dx ≤ xMin + 500 * dx := by
    have : (i : ℚ) * dx ≤ 500 * dx := mul_le_mul_of_nonneg_right hi hdx
    linarith
  rw [findRootsStep]
  rcases hf : f (xMin + i * dx) with y | _ | _
  · dsimp only
    rcases prevY with _ | py
    · dsimp only
      intro r hr
      by_cases hy : |y| < rootEps
      · simp only [hy, if_true] at hr
        rcases mem_pushDedup hr with h | h
        · exact hst r h
        · subst h; exact ⟨hxlo, hxhi⟩
      · simp only [hy, if_false] at hr
        exact hst r hr
    · dsimp only
      have h1i : (1 : ℚ) ≤ (i : ℚ) := hprev rfl
      have hxmd : xMin ≤ xMin + i * dx - dx := by
        have : dx ≤ i * dx := by
          calc dx = 1 * dx := (one_mul dx).symm
          _ ≤ i * dx := mul_le_mul_of_nonneg_right h1i hdx
        linarith
      by_cases hpy : py * y < 0
      · simp only [hpy, if_true]
        rcases hb : bisect f 50 (xMin + i * dx - dx) (xMin + i * dx) with _ | p
        · dsimp only
          exact hst
        · dsimp only
          have hbr := bisect_bounds f 50 _ _ (by linarith) p hb
          have hroot1 : xMin ≤ (p.1 + p.2) / 2 := by
            rcases hbr with ⟨h1, h2, h3⟩
            have : xMin + i * dx - dx ≤ (p.1 + p.2) / 2 := by linarith
            linarith
          have hroot2 : (p.1 + p.2) / 2 ≤ xMin + 500 * dx := by
            rcases hbr with ⟨h1, h2, h3⟩
            have : (p.1 + p.2) / 2 ≤ xMin + i * dx := by linarith
            linarith
          intro r hr
          by_cases hy : |y| < rootEps
          · simp only [hy, if_true] at hr
            rcases mem_pushDedup hr with h | h
            · rcases mem_pushDedup h with h2 | h2
              · exact hst r h2
              · subst h2; exact ⟨hroot1, hroot2⟩
            · subst h; exact ⟨hxlo, hxhi⟩
          · simp only [hy, if_false] at hr
            rcases mem_pushDedup hr with h | h
            · exact hst r h
            · subst h; exact ⟨hroot1, hroot2⟩
      · simp only [hpy, if_false]
        intro r hr
        by_cases hy : |y| < rootEps
        · simp only [hy, if_true] at hr
          rcases mem_pushDedup hr with h | h
          · exact hst r h
          · subst h; exact ⟨hxlo, hxhi⟩
        · simp only [hy, if_false] at hr
          exact hst r hr
  · exact hst
  · exact hst

/-- The `findRoots` loop keeps all roots inside `[xMin, xMin + 500·dx]`. -/
lemma findRootsAux_range (f : EvalR) (xMin dx : ℚ) (hdx : 0 ≤ dx) :
    ∀ (n i : Nat), i + n = 501 →
      ∀ (st : List ℚ × Option ℚ),
      (∀ r ∈ st.1, xMin ≤ r ∧ r ≤ xMin + 500 * dx) →
      (st.2.isSome = true → (1 : ℚ) ≤ (i : ℚ)) →
      ∀ r ∈ findRootsAux f xMin dx n i st, xMin ≤ r ∧ r ≤ xMin + 500 * dx := by
  intro n
  induction n with
  | zero => intro i _ st hst _; exact hst
  | succ n ih =>
    intro i hin st hst hprev
    rw [findRootsAux]
    have hi : (i : ℚ) ≤ 500 := by
      have : i ≤ 500 := by omega
      exact_mod_cast this
    apply ih (i + 1) (by omega)
    · obtain ⟨roots, prevY⟩ := st
      exact findRootsStep_range f xMin dx hdx i hi roots prevY hst hprev
    · intro _
      have : (1 : ℚ) ≤ ((1 : ℕ) : ℚ) := by norm_num
      have hcast : ((i + 1 : ℕ) : ℚ) = (i : ℚ) + 1 := by push_cast; ring
      rw [hcast]
      have : (0 : ℚ) ≤ (i : ℚ) := Nat.cast_nonneg i
      linarith

/-- The derivative bisection of `refine` keeps the bracket inside the
original one. -/
lemma refineAux_bounds (f : EvalR) (h : ℚ) :
    ∀ (n : Nat) (a b : ℚ), a ≤ b → ∀ p, refineAux f h n a b = some p →
      a ≤ p.1 ∧ p.1 ≤ p.2 ∧ p.2 ≤ b := by
  intro n
  induction n with
  | zero =>
    intro a b hab p hp
    cases hp
    exact ⟨le_refl a, hab, le_refl b⟩
  | succ n ih =>
    intro a b hab p hp
    rw [refineAux] at hp
    have hm1 : a ≤ (a + b) / 2 := by linarith
    have hm2 : (a + b) / 2 ≤ b := by linarith
    rcases h1 : f ((a + b) / 2 - h) with fl | _ | _ <;> rw [h1] at hp <;>
      (try dsimp only at hp) <;> (try cases hp)
    rcases h2 : f ((a + b) / 2 + h) with fr | _ | _ <;> rw [h2] at hp <;>
      (try dsimp only at hp) <;> (try cases hp)
    rcases h3 : f (a - h) with fla | _ | _ <;> rw [h3] at hp <;>
      (try dsimp only at hp) <;> (try cases hp)
    rcases h4 : f (a + h) with fra | _ | _ <;> rw [h4] at hp <;>
      (try dsimp only at hp) <;> (try cases hp)
    split at hp
    · rcases ih a ((a + b) / 2) hm1 p hp with ⟨g1, g2, g3⟩
      exact ⟨g1, g2, le_trans g3 hm2⟩
    · rcases ih ((a + b) / 2) b hm2 p hp with ⟨g1, g2, g3⟩
      exact ⟨le_trans hm1 g1, g2, g3⟩

/-- The converged abscissa of `refine` lies inside the requested bracket. -/
lemma refine_bounds (f : EvalR) (a b h : ℚ) (hab : a ≤ b) (p : ℚ × ℚ)
    (hp : refine f a b h = some p) : a ≤ p.1 ∧ p.1 ≤ b := by
  rw [refine] at hp
  rcases hq : refineAux f h 50 a b with _ | q <;> rw [hq] at hp
  · cases hp
  · dsimp only at hp
    rcases hy : f ((q.1 + q.2) / 2) with y | _ | _ <;> rw [hy] at hp <;>
      (try dsimp only at hp) <;> (try cases hp)
    rcases refineAux_bounds f h 50 a b hab q hq with ⟨g1, g2, g3⟩
    constructor
    · show a ≤ (q.1 + q.2) / 2
      linarith
    · show (q.1 + q.2) / 2 ≤ b
      linarith

/-- Each sampling iteration of `findExtrema` keeps all recorded extrema
inside `[xMin, xMin + 500·dx]`. -/
lemma findExtremaStep_range (f : EvalR) (xMin dx h : ℚ) (hdx : 0 ≤ dx) (i : Nat)
    (hi : (i : ℚ) ≤ 500) (ext : List Extremum) (prevD : Option ℚ)
    (hst : ∀ e ∈ ext, xMin ≤ e.x ∧ e.x ≤ xMin + 500 * dx)
    (hprev : prevD.isSome = true → (1 : ℚ) ≤ (i : ℚ)) :
    ∀ e ∈ (findExtremaStep f xMin dx h i (ext, prevD)).1,
      xMin ≤ e.x ∧ e.x ≤ xMin + 500 * dx := by
  rw [findExtremaStep]
  rcases hfl : f (xMin + i * dx - h) with fl | _ | _
  case nonfinite => exact hst
  case err => exact hst
  rcases hfr : f (xMin + i * dx + h) with fr | _ | _
  case nonfinite => exact hst
  case err => exact hst
  dsimp only
  rcases prevD with _ | pd
  · dsimp only
    exact hst
  · dsimp only
    have h1i : (1 : ℚ) ≤ (i : ℚ) := hprev rfl
    have hxlo : xMin ≤ xMin + i * dx - dx := by
      have : dx ≤ i * dx := by
        calc dx = 1 * dx := (one_mul dx).symm
        _ ≤ i * dx := mul_le_mul_of_nonneg_right h1i hdx
      linarith
    have hxhi : xMin + i * dx ≤ xMin + 500 * dx := by
      have : (i : ℚ) * dx ≤ 500 * dx := mul_le_mul_of_nonneg_right hi hdx
      linarith
    have hpush : ∀ (k : ExKind) (e : Extremum),
        e ∈ (match refine f (xMin + i * dx - dx) (xMin + i * dx) h with
             | some p => ext ++ [(⟨p.1, p.2, k⟩ : Extremum)]
             | none => ext) →
        xMin ≤ e.x ∧ e.x ≤ xMin + 500 * dx := by
      intro k e he
      rcases hr : refine f (xMin + i * dx - dx) (xMin + i * dx) h with _ | p <;>
        rw [hr] at he
      · exact hst e he
      · rcases List.mem_append.mp he with hm | hm
        · exact hst e hm
        · rw [List.mem_singleton] at hm
          subst hm
          have hb := refine_bounds f _ _ h (by linarith) p hr
          constructor
          · linarith [hb.1]
          · linarith [hb.2]
    by_cases hc1 : pd > 0 ∧ (fr - fl) / (2 * h) < 0
    · simp only [hc1, if_true]
      exact hpush ExKind.max
    · simp only [hc1, if_false]
      by_cases hc2 : pd < 0 ∧ (fr - fl) / (2 * h) > 0
      · simp only [hc2, if_true]
        exact hpush ExKind.min
      · simp only [hc2, if_false]
        exact hst

/-- The `findExtrema` loop keeps all extrema inside
`[xMin, xMin + 500·dx]`. -/
lemma findExtremaAux_range (f : EvalR) (xMin dx h : ℚ) (hdx : 0 ≤ dx) :
    ∀ (n i : Nat), i + n = 501 →
      ∀ (st : List Extremum × Option ℚ),
      (∀ e ∈ st.1, xMin ≤ e.x ∧ e.x ≤ xMin + 500 * dx) →
      (st.2.isSome = true → (1 : ℚ) ≤ (i : ℚ)) →
      ∀ e ∈ findExtremaAux f xMin dx h n i st, xMin ≤ e.x ∧ e.x ≤ xMin + 500 * dx := by
  intro n
  induction n with
  | zero => intro i _ st hst _; exact hst
  | succ n ih =>
    intro i hin st hst hprev
    rw [findExtremaAux]
    have hi : (i : ℚ) ≤ 500 := by
      have : i ≤ 500 := by omega
      exact_mod_cast this
    apply ih (i + 1) (by omega)
    · obtain ⟨ext, prevD⟩ := st
      exact findExtremaStep_range f xMin dx h hdx i hi ext prevD hst hprev
    · intro _
      have hcast : ((i + 1 : ℕ) : ℚ) = (i : ℚ) + 1 := by push_cast; ring
      rw [hcast]
      have : (0 : ℚ) ≤ (i : ℚ) := Nat.cast_nonneg i
      linarith

/-- Claim C9: for every handle and every interval with `xMin ≤ xMax`, every
value returned by `findRoots` lies in `[xMin, xMax]`, and every extremum
returned by `findExtrema` has its abscissa in `[xMin, xMax]`. -/
theorem claim_C9_theorem (f : EvalR) (xMin xMax : ℚ) (hle : xMin ≤ xMax) :
    (∀ r ∈ findRoots f xMin xMax, xMin ≤ r ∧ r ≤ xMax) ∧
    (∀ e ∈ findExtrema f xMin xMax, xMin ≤ e.x ∧ e.x ≤ xMax) := by
  have hdx : 0 ≤ (xMax - xMin) / 500 := div_nonneg (by linarith) (by norm_num)
  have htop : xMin + 500 * ((xMax - xMin) / 500) = xMax := by ring
  constructor
  · intro r hr
    rw [findRoots] at hr
    have := findRootsAux_range f xMin ((xMax - xMin) / 500) hdx 501 0 rfl ([], none)
      (by intro r h; cases h) (by intro hh; exact absurd hh (by simp)) r hr
    rwa [htop] at this
  · intro e he
    rw [findExtrema] at he
    have := findExtremaAux_range f xMin ((xMax - xMin) / 500)
      ((xMax - xMin) / 500 * (1 / 1000)) hdx 501 0 rfl ([], none)
      (by intro e h; cases h) (by intro hh; exact absurd hh (by simp)) e he
    rwa [htop] at this

/-- Witness for claim C9: on the constant-zero handle over the interval
`[0, 0]`, the root `0` is returned and indeed lies within the interval. -/
theorem claim_C9_witness : (0 : ℚ) ≤ 0 ∧ (0 : ℚ) ≤ 0 :=
  (claim_C9_theorem czero 0 0 le_rfl).1 0 (by
    rw [findRoots_zero_width]
    show (0 : ℚ) ∈ (if |(0 : ℚ)| < rootEps then [(0 : ℚ)] else [])
    rw [if_pos (by norm_num [rootEps])]
    exact List.mem_singleton.mpr rfl)

/-- `getD` through a `set` at a different index. -/
lemma getD_set_ne {α : Type} (l : List α) (i j : Nat) (x d : α) (hij : i ≠ j) :
    (l.set i x).getD j d = l.getD j d := by
  rw [List.getD_eq_getElem?_getD, List.getD_eq_getElem?_getD, List.getElem?_set_ne hij]

/-- `getD` through a `set` at the same (in-bounds) index. -/
lemma getD_set_self {α : Type} (l : List α) (i : Nat) (x d : α) (h : i < l.length) :
    (l.set i x).getD i d = x := by
  rw [List.getD_eq_getElem?_getD, List.getElem?_set_self h]
  rfl

/-- A right-walk step on an unusable sample writes no-value and keeps the
accumulator. -/
lemma rightStep_unusable (f : EvalR) (v : ViewPar) (fn : FnEntry) (s idx : ℕ)
    (vals : List (Option ℚ)) (acc : ℚ) (h : sampleVal f v fn idx = none) :
    rightStep f v fn s idx vals acc = (vals.set idx none, acc) := by
  rw [rightStep, h]

/-- A left-walk step on an unusable sample writes no-value and keeps the
accumulator. -/
lemma leftStep_unusable (f : EvalR) (v : ViewPar) (fn : FnEntry) (s idx : ℕ)
    (vals : List (Option ℚ)) (acc : ℚ) (h : sampleVal f v fn idx = none) :
    leftStep f v fn s idx vals acc = (vals.set idx none, acc) := by
  rw [leftStep, h]

/-- A right-walk step only changes the entry at its own index. -/
lemma rightStep_fst (f : EvalR) (v : ViewPar) (fn : FnEntry) (s idx : ℕ)
    (vals : List (Option ℚ)) (acc : ℚ) :
    ∃ w, (rightStep f v fn s idx vals acc).1 = vals.set idx w := by
  rw [rightStep]
  rcases sampleVal f v fn idx with _ | y
  · exact ⟨none, rfl⟩
  · exact ⟨_, rfl⟩

/-- A left-walk step only changes the entry at its own index. -/
lemma leftStep_fst (f : EvalR) (v : ViewPar) (fn : FnEntry) (s idx : ℕ)
    (vals : List (Option ℚ)) (acc : ℚ) :
    ∃ w, (leftStep f v fn s idx vals acc).1 = vals.set idx w := by
  rw [leftStep]
  rcases sampleVal f v fn idx with _ | y
  · exact ⟨none, rfl⟩
  · exact ⟨_, rfl⟩

/-- The right walk preserves the array length. -/
lemma rightWalk_length (f : EvalR) (v : ViewPar) (fn : FnEntry) (s : ℕ) :
    ∀ (n idx : ℕ) (st : List (Option ℚ) × ℚ),
      (rightWalk f v fn s n idx st).length = st.1.length := by
  intro n
  induction n with
  | zero => intro idx st; rfl
  | succ n ih =>
    intro idx st
    rw [rightWalk, ih]
    rcases rightStep_fst f v fn s idx st.1 st.2 with ⟨w, hw⟩
    rw [hw, List.length_set]

/-- The left walk preserves the array length. -/
lemma leftWalk_length (f : EvalR) (v : ViewPar) (fn : FnEntry) (s : ℕ) :
    ∀ (idx : ℕ) (st : List (Option ℚ) × ℚ),
      (leftWalk f v fn s idx st).length = st.1.length := by
  intro idx
  induction idx with
  | zero =>
    intro st
    rw [leftWalk]
    rcases leftStep_fst f v fn s 0 st.1 st.2 with ⟨w, hw⟩
    rw [hw, List.length_set]
  | succ idx ih =>
    intro st
    rw [leftWalk, ih]
    rcases leftStep_fst f v fn s (idx + 1) st.1 st.2 with ⟨w, hw⟩
    rw [hw, List.length_set]

/-- The right walk does not touch entries left of its start index. -/
lemma rightWalk_getD_lt (f : EvalR) (v : ViewPar) (fn : FnEntry) (s : ℕ) :
    ∀ (n idx : ℕ) (st : List (Option ℚ) × ℚ) (j : ℕ), j < idx →
      (rightWalk f v fn s n idx st).getD j none = st.1.getD j none := by
  intro n
  induction n with
  | zero => intro idx st j _; rfl
  | succ n ih =>
    intro idx st j hj
    rw [rightWalk, ih (idx + 1) _ j (by omega)]
    rcases rightStep_fst f v fn s idx st.1 st.2 with ⟨w, hw⟩
    rw [hw, getD_set_ne _ _ _ _ _ (by omega)]

/-- The left walk does not touch entries right of its start index. -/
lemma leftWalk_getD_gt (f : EvalR) (v : ViewPar) (fn : FnEntry) (s : ℕ) :
    ∀ (idx : ℕ) (st : List (Option ℚ) × ℚ) (j : ℕ), idx < j →
      (leftWalk f v fn s idx st).getD j none = st.1.getD j none := by
  intro idx
  induction idx with
  | zero =>
    intro st j hj
    rw [leftWalk]
    rcases leftStep_fst f v fn s 0 st.1 st.2 with ⟨w, hw⟩
    rw [hw, getD_set_ne _ _ _ _ _ (by omega)]
  | succ idx ih =>
    intro st j hj
    rw [leftWalk, ih _ j (by omega)]
    rcases leftStep_fst f v fn s (idx + 1) st.1 st.2 with ⟨w, hw⟩
    rw [hw, getD_set_ne _ _ _ _ _ (by omega)]

/-- Any unusable sample visited by the right walk ends as no-value. -/
lemma rightWalk_none (f : EvalR) (v : ViewPar) (fn : FnEntry) (s : ℕ) :
    ∀ (n idx : ℕ) (st : List (Option ℚ) × ℚ) (j : ℕ),
      idx ≤ j → j < idx + n → j < st.1.length → sampleVal f v fn j = none →
      (rightWalk f v fn s n idx st).getD j none = none := by
  intro n
  induction n with
  | zero => intro idx st j h1 h2 _; omega
  | succ n ih =>
    intro idx st j h1 h2 hlen hs
    rw [rightWalk]
    by_cases hji : j = idx
    · subst hji
      rw [rightWalk_getD_lt f v fn s n (j + 1) _ j (by omega)]
      rw [rightStep_unusable f v fn s j st.1 st.2 hs]
      exact getD_set_self _ _ _ _ hlen
    · apply ih (idx + 1) _ j (by omega) (by omega)
      · rcases rightStep_fst f v fn s idx st.1 st.2 with ⟨w, hw⟩
        rw [hw, List.length_set]
        exact hlen
      · exact hs

/-- Any unusable sample visited by the left walk ends as no-value. -/
lemma leftWalk_none (f : EvalR) (v : ViewPar) (fn : FnEntry) (s : ℕ) :
    ∀ (idx : ℕ) (st : List (Option ℚ) × ℚ) (j : ℕ),
      j ≤ idx → j < st.1.length → sampleVal f v fn j = none →
      (leftWalk f v fn s idx st).getD j none = none := by
  intro idx
  induction idx with
  | zero =>
    intro st j h1 hlen hs
    have hj0 : j = 0 := by omega
    subst hj0
    rw [leftWalk, leftStep_unusable f v fn s 0 st.1 st.2 hs]
    exact getD_set_self _ _ _ _ hlen
  | succ idx ih =>
    intro st j h1 hlen hs
    rw [leftWalk]
    by_cases hji : j = idx + 1
    · subst hji
      rw [leftWalk_getD_gt f v fn s idx _ (idx + 1) (by omega)]
      rw [leftStep_unusable f v fn s (idx + 1) st.1 st.2 hs]
      exact getD_set_self _ _ _ _ hlen
    · apply ih _ j (by omega)
      · rcases leftStep_fst f v fn s (idx + 1) st.1 st.2 with ⟨w, hw⟩
        rw [hw, List.length_set]
        exact hlen
      · exact hs

/-- The anchored array has `totalPx + 1` entries. -/
lemma intVals1_length (v : ViewPar) : (intVals1 v).length = totalPx v + 1 := by
  rw [intVals1]
  split
  · rw [List.length_set, intVals0, List.length_replicate]
  · rw [intVals0, List.length_replicate]

/-- The array after the right walk has `totalPx + 1` entries. -/
lemma intVals2_length (f : EvalR) (v : ViewPar) (fn : FnEntry) :
    (intVals2 f v fn).length = totalPx v + 1 := by
  rw [intVals2, rightWalk_length]
  exact intVals1_length v

/-- Any unusable on-screen sample ends as no-value in the completed
`integralVals` array. -/
lemma integralVals_unusable (f : EvalR) (v : ViewPar) (fn : FnEntry) (idx : ℕ)
    (hidx : idx ≤ totalPx v) (hs : sampleVal f v fn idx = none) :
    (integralVals f v fn).getD idx none = none := by
  have hlen2 : (intVals2 f v fn).length = totalPx v + 1 := intVals2_length f v fn
  have h2 : intStartRight v ≤ idx → (intVals2 f v fn).getD idx none = none := by
    intro hsr
    rw [intVals2]
    exact rightWalk_none f v fn (intStartRight v) _ (intStartRight v) _ idx hsr
      (by omega) (by rw [intVals1_length]; omega) hs
  rw [integralVals]
  by_cases hL : 0 ≤ intStartLeft v
  · rw [if_pos hL]
    by_cases hidxL : idx ≤ (intStartLeft v).toNat
    · exact leftWalk_none f v fn _ _ _ idx hidxL (by rw [hlen2]; omega) hs
    · rw [leftWalk_getD_gt f v fn _ _ _ idx (by omega)]
      apply h2
      have hz := le_max_left (0 : ℤ) (zeroPxIdx v)
      rw [intStartRight]
      rw [intStartLeft] at hidxL hL
      omega
  · rw [if_neg hL]
    apply h2
    have : intStartLeft v < 0 := by omega
    rw [intStartLeft] at this
    have hz : zeroPxIdx v < 0 := by
      rcases le_or_lt (zeroPxIdx v) (totalPx v : ℤ) with h | h
      · omega
      · omega
    rw [intStartRight]
    omega

/-- A right-walk step at the first usable sample after a gap writes the
accumulator unchanged: the trapezoid guard `integralVals[idx-1] !== null`
fails, no area is added, and the pre-gap amount is carried over. -/
lemma rightStep_gap (f : EvalR) (v : ViewPar) (fn : FnEntry) (s idx : ℕ)
    (vals : List (Option ℚ)) (acc : ℚ) (y : ℚ) (hs : s < idx)
    (hy : sampleVal f v fn idx = some y) (hgap : vals.getD (idx - 1) none = none) :
    rightStep f v fn s idx vals acc = (vals.set idx (some acc), acc) := by
  rw [rightStep, hy]
  dsimp only
  rw [if_neg (by omega : ¬ idx = s)]
  rw [if_neg (by rw [hgap]; simp)]

/-- Claim C3, amended.  First part (as claimed): every sample whose `f`
value is unusable (out of the declared domain, evaluation throws, or the
value is non-finite) ends with the accumulated value "no value".  Second
part (replacing the no-carry-over claim): at the first usable sample after
a gap the walk writes the accumulator *unchanged* — the trapezoid spanning
the gap is skipped, but the amount accumulated before the gap IS carried
over to the samples after it. -/
theorem claim_C3_theorem :
    (∀ (f : EvalR) (v : ViewPar) (fn : FnEntry) (idx : ℕ), idx ≤ totalPx v →
       sampleVal f v fn idx = none →
       (integralVals f v fn).getD idx none = none) ∧
    (∀ (f : EvalR) (v : ViewPar) (fn : FnEntry) (s idx : ℕ)
       (vals : List (Option ℚ)) (acc : ℚ) (y : ℚ), s < idx →
       sampleVal f v fn idx = some y → vals.getD (idx - 1) none = none →
       rightStep f v fn s idx vals acc = (vals.set idx (some acc), acc)) :=
  ⟨integralVals_unusable, rightStep_gap⟩

unseal Rat.add Rat.sub Rat.mul Rat.inv in
/-- Witness for claim C3: on the view `vCE` with `fC3` (unusable exactly at
the sample of pixel index 5), index 5 ends as no-value, and the step at
index 6 — whose left neighbour is the gap — writes the pre-gap accumulator
`2` unchanged. -/
theorem claim_C3_witness :
    (integralVals fC3 vCE fnCE).getD 5 none = none ∧
    rightStep fC3 vCE fnCE 3 6 [none, none, none, some 0, some 2, none, none] 2 =
      ([none, none, none, some 0, some 2, none, some 2], 2) :=
  ⟨claim_C3_theorem.1 fC3 vCE fnCE 5 (by decide) (by decide),
   by
    rw [claim_C3_theorem.2 fC3 vCE fnCE 3 6 _ 2 1 (by decide) (by decide) (by decide)]
    rfl⟩

/-- A left-walk step at its own start index writes exactly the anchor `0`
when the sample is usable. -/
lemma leftStep_start (f : EvalR) (v : ViewPar) (fn : FnEntry) (s : ℕ)
    (vals : List (Option ℚ)) (acc y : ℚ) (hy : sampleVal f v fn s = some y) :
    leftStep f v fn s s vals acc = (vals.set s (some 0), 0) := by
  rw [leftStep, hy]
  dsimp only
  rw [if_pos rfl]
  rw [if_neg (by simp)]

/-- Claim C7, amended: whenever the origin pixel index lies on screen, the
accumulated value at the sample nearest `x = 0` is exactly `0` if that
sample is usable, and "no value" if it is not (the walks overwrite the
anchored `0` in that case). -/
theorem claim_C7_theorem (f : EvalR) (v : ViewPar) (fn : FnEntry)
    (h0 : 0 ≤ zeroPxIdx v) (hT : zeroPxIdx v ≤ (totalPx v : ℤ)) :
    (integralVals f v fn).getD (zeroPxIdx v).toNat none =
      (match sampleVal f v fn (zeroPxIdx v).toNat with
       | some _ => some 0
       | none => none) := by
  have hkT : (zeroPxIdx v).toNat ≤ totalPx v := by omega
  rcases hsv : sampleVal f v fn (zeroPxIdx v).toNat with _ | y
  · exact integralVals_unusable f v fn _ hkT hsv
  · have hsl : intStartLeft v = zeroPxIdx v := by
      rw [intStartLeft]
      omega
    have hslt : (intStartLeft v).toNat = (zeroPxIdx v).toNat := by rw [hsl]
    rw [integralVals, if_pos (by omega : 0 ≤ intStartLeft v), hslt]
    rcases hk : (zeroPxIdx v).toNat with _ | k
    · rw [leftWalk]
      rw [show ((intVals2 f v fn, (0 : ℚ)).1) = intVals2 f v fn from rfl,
        show ((intVals2 f v fn, (0 : ℚ)).2) = (0 : ℚ) from rfl]
      rw [leftStep_start f v fn 0 (intVals2 f v fn) 0 y (hk ▸ hsv)]
      exact getD_set_self _ _ _ _ (by rw [intVals2_length]; omega)
    · rw [leftWalk]
      dsimp only
      rw [leftWalk_getD_gt f v fn (k + 1) k _ (k + 1) (by omega)]
      rw [leftStep_start f v fn (k + 1) (intVals2 f v fn) 0 y (hk ▸ hsv)]
      exact getD_set_self _ _ _ _ (by rw [intVals2_length]; omega)

unseal Rat.add Rat.sub Rat.mul Rat.inv in
/-- Witness for claim C7: on the view `vCE` with the constant-one handle the
origin sample (pixel index 3) is usable and its accumulated value is exactly
`0`. -/
theorem claim_C7_witness :
    (integralVals oneR vCE fnCE).getD (zeroPxIdx vCE).toNat none =
      (match sampleVal oneR vCE fnCE (zeroPxIdx vCE).toNat with
       | some _ => some 0
       | none => none) :=
  claim_C7_theorem oneR vCE fnCE (by decide) (by decide)
